import Mathlib

/-!
# Verification of the weaverbird step-execution engine (pandas backend)

Shallow embedding of the step model of `server/weaverbird/`:
tables are ordered lists of named columns of equal length (the pandas
`DataFrame`s the steps receive), and each step's `execute` method is
translated into a Lean function over that model.  External capabilities
(the pandas expression evaluator `df.eval`, the condition `filter`
compilation and the formula cleaner `clean_formula`) are parameters of
the embedding, as the spec treats them as external collaborators.
-/

set_option autoImplicit false

namespace Weaverbird

/-- A cell value of a table: the value domains the steps manipulate
(numeric, string, boolean, rational results of divisions, null). -/
inductive Value where
  | int : Int → Value
  | rat : ℚ → Value
  | str : String → Value
  | bool : Bool → Value
  | null : Value
deriving Repr, DecidableEq

/-- Errors the embedded step code can raise (Python exceptions). -/
inductive Err where
  | indexError
  | assertionError
  | validationError
  | keyError
deriving Repr, DecidableEq

/-- Column lookup in an ordered list of named columns (`df[name]`). -/
def lookupCol : List (String × List Value) → String → Option (List Value)
  | [], _ => none
  | p :: rest, c => if p.1 = c then some p.2 else lookupCol rest c

/-- A pandas `DataFrame`: an ordered list of named columns, each a list of
cell values.  Well-formed frames have uniquely-named columns of equal
length; the lemmas state their length hypotheses explicitly. -/
structure DF where
  cols : List (String × List Value)
deriving Repr, DecidableEq

def DF.getCol (df : DF) (c : String) : List Value :=
  (lookupCol df.cols c).getD []

def DF.colNames (df : DF) : List String := df.cols.map Prod.fst

/-- Row count of a frame: the length of its first column (all columns of a
well-formed frame have the same length). -/
def DF.height (df : DF) : Nat :=
  match df.cols with
  | [] => 0
  | p :: _ => p.2.length

/-- Does a named column exist? -/
def hasColB : List (String × List Value) → String → Bool
  | [], _ => false
  | p :: rest, c => if p.1 = c then true else hasColB rest c

/-- `df.assign(**{name: col})`: replace the column `name` in place if it
exists, otherwise append it as the last column. -/
def DF.assign (df : DF) (c : String) (col : List Value) : DF :=
  if hasColB df.cols c then
    ⟨df.cols.map (fun p => if p.1 = c then (c, col) else p)⟩
  else
    ⟨df.cols ++ [(c, col)]⟩

theorem hasColB_iff_mem (cols : List (String × List Value)) (c : String) :
    hasColB cols c = true ↔ c ∈ cols.map Prod.fst := by
  induction cols with
  | nil => simp [hasColB]
  | cons p rest ih =>
    by_cases h : p.1 = c
    · simp [hasColB, h]
    · simp [hasColB, h, ih, Ne.symm h]

theorem lookupCol_replace_self (cols : List (String × List Value)) (c : String)
    (col : List Value) (h : hasColB cols c = true) :
    lookupCol (cols.map (fun p => if p.1 = c then (c, col) else p)) c = some col := by
  induction cols with
  | nil => simp [hasColB] at h
  | cons p rest ih =>
    by_cases hp : p.1 = c
    · simp [lookupCol, hp]
    · simp only [hasColB, hp, if_false] at h
      simp [lookupCol, hp, ih h]

theorem lookupCol_replace_ne (cols : List (String × List Value)) (c : String)
    (col : List Value) (m : String) (h : m ≠ c) :
    lookupCol (cols.map (fun p => if p.1 = c then (c, col) else p)) m
      = lookupCol cols m := by
  induction cols with
  | nil => simp [lookupCol]
  | cons p rest ih =>
    by_cases hp : p.1 = c
    · simp [lookupCol, hp, Ne.symm h, h, ih]
    · by_cases hm : p.1 = m <;> simp [lookupCol, hp, hm, h, ih]

theorem lookupCol_append_absent (cols : List (String × List Value)) (c : String)
    (col : List Value) (h : hasColB cols c = false) :
    lookupCol (cols ++ [(c, col)]) c = some col := by
  induction cols with
  | nil => simp [lookupCol]
  | cons p rest ih =>
    by_cases hp : p.1 = c
    · simp [hasColB, hp] at h
    · simp only [hasColB, hp, if_false] at h
      simp [lookupCol, hp, ih h]

theorem lookupCol_append_ne (cols : List (String × List Value)) (c : String)
    (col : List Value) (m : String) (h : m ≠ c) :
    lookupCol (cols ++ [(c, col)]) m = lookupCol cols m := by
  induction cols with
  | nil => simp [lookupCol, Ne.symm h]
  | cons p rest ih =>
    by_cases hm : p.1 = m <;> simp [lookupCol, hm, ih]

theorem getCol_assign_self (df : DF) (c : String) (col : List Value) :
    (df.assign c col).getCol c = col := by
  unfold DF.assign
  by_cases h : hasColB df.cols c
  · simp [h, DF.getCol, lookupCol_replace_self df.cols c col h]
  · simp only [h, if_false]
    simp [DF.getCol, lookupCol_append_absent df.cols c col (by simpa using h)]

theorem getCol_assign_ne (df : DF) (c : String) (col : List Value) (m : String)
    (h : m ≠ c) : (df.assign c col).getCol m = df.getCol m := by
  unfold DF.assign
  by_cases hc : hasColB df.cols c
  · simp [hc, DF.getCol, lookupCol_replace_ne df.cols c col m h]
  · simp only [hc, if_false]
    simp [DF.getCol, lookupCol_append_ne df.cols c col m h]

theorem colNames_assign (df : DF) (c : String) (col : List Value) :
    (df.assign c col).colNames =
      if c ∈ df.colNames then df.colNames else df.colNames ++ [c] := by
  by_cases h : hasColB df.cols c
  · have hmem : c ∈ List.map Prod.fst df.cols := (hasColB_iff_mem df.cols c).mp h
    simp only [DF.assign, h, if_true, DF.colNames, List.map_map, if_pos hmem]
    apply List.map_congr_left
    intro p _
    by_cases hp : p.1 = c <;> simp [hp]
  · have hmem : c ∉ List.map Prod.fst df.cols :=
      fun hm => h ((hasColB_iff_mem df.cols c).mpr hm)
    simp [DF.assign, h, DF.colNames, if_neg hmem]

theorem height_assign (df : DF) (c : String) (col : List Value)
    (h : col.length = df.height) : (df.assign c col).height = df.height := by
  unfold DF.assign
  by_cases hc : hasColB df.cols c
  · rw [if_pos hc]
    match hd : df.cols with
    | [] => simp [hd] at hc ⊢; simp [hasColB] at hc
    | p :: rest =>
      by_cases hp : p.1 = c
      · simp only [DF.height, List.map_cons, hp, if_true]
        rw [h]
        simp [DF.height, hd]
      · simp only [DF.height, List.map_cons, hp, if_false]
        simp [DF.height, hd]
  · rw [if_neg hc]
    match hd : df.cols with
    | [] =>
      simp only [DF.height, List.nil_append]
      rw [h]
      simp [DF.height, hd]
    | p :: rest => simp [DF.height, hd]

/-! ## Argmin step (`weaverbird/steps/argmin.py`) -/

/-- `ArgminStep`: fields of the pydantic model (the constant `name` tag is
implied by the variant). -/
structure ArgminStep where
  column : String
  groups : List String := []
deriving Repr, DecidableEq

/-- `series.min()` of pandas on a numeric column: the minimum of the
integer cells, skipping non-numeric cells; `null` (NaN) on an empty or
fully non-numeric column. -/
def seriesMin (l : List Value) : Value :=
  match l.filterMap (fun v => match v with | .int n => some n | _ => none) with
  | [] => .null
  | x :: xs => .int (xs.foldl min x)

/-- The group key of row `i` for grouping columns `groups`. -/
def groupKey (df : DF) (groups : List String) (i : Nat) : List Value :=
  groups.map (fun g => (df.getCol g).getD i .null)

/-- `df.groupby(groups)[column].transform('min')`: a column, row-aligned
with `df`, whose entry at `i` is the minimum of `column` over the rows
sharing row `i`'s group key. -/
def groupbyTransformMin (df : DF) (groups : List String) (column : String) :
    List Value :=
  (List.range df.height).map (fun i =>
    seriesMin ((List.range df.height).filterMap (fun j =>
      if groupKey df groups j = groupKey df groups i then
        some ((df.getCol column).getD j .null)
      else none)))

/-- `ArgminStep.execute`: with no groups, assign the global minimum of the
target column to that column (broadcast over all rows); otherwise assign
the per-group minimum via `groupby(...).transform('min')`.  Note: both
branches `assign` into the existing column and keep every row. -/
def ArgminStep.execute (s : ArgminStep) (df : DF) : DF :=
  if s.groups.length = 0 then
    df.assign s.column (List.replicate df.height (seriesMin (df.getCol s.column)))
  else
    df.assign s.column (groupbyTransformMin df s.groups s.column)

/-- The sample table of the repository's argmax/argmin tests:
six rows, two groups of three, values 13,7,20 / 1,10,5. -/
def sampleDF : DF :=
  ⟨[("label", [.str "label1", .str "label2", .str "label3",
               .str "label4", .str "label5", .str "label6"]),
    ("group", [.str "group 1", .str "group 1", .str "group 1",
               .str "group 2", .str "group 2", .str "group 2"]),
    ("value", [.int 13, .int 7, .int 20, .int 1, .int 10, .int 5])]⟩

/-! ## Cumulative-sum step (`weaverbird/steps/cumsum.py`) -/

/-- `CumSumStep`: fields of the pydantic model. -/
structure CumSumStep where
  value_column : String
  reference_column : String
  groupby : Option (List String) := none
  new_column : Option String := none

/-- `dst_column = self.new_column or f'...value_column..._CUMSUM'`
(Python `or`: a `None` or empty-string `new_column` falls back to the
default name). -/
def CumSumStep.dst_column (s : CumSumStep) : String :=
  match s.new_column with
  | some c => if c = "" then s.value_column ++ "_CUMSUM" else c
  | none => s.value_column ++ "_CUMSUM"

/-- `series.cumsum()` of pandas: running sum over the integer cells in row
order, leaving non-numeric (NaN) cells in place and skipping them in the
accumulation. -/
def seriesCumsum (acc : Int) : List Value → List Value
  | [] => []
  | .int n :: rest => .int (acc + n) :: seriesCumsum (acc + n) rest
  | v :: rest => v :: seriesCumsum acc rest

/-- `df.groupby(groups)[column].cumsum()`: entry `i` is the sum of the
integer cells of `column` at rows `j ≤ i` sharing row `i`'s group key. -/
def groupedCumsum (df : DF) (groups : List String) (column : String) :
    List Value :=
  (List.range df.height).map (fun i =>
    match (df.getCol column).getD i .null with
    | .int _ => .int (((List.range (i + 1)).filterMap (fun j =>
        if groupKey df groups j = groupKey df groups i then
          match (df.getCol column).getD j .null with
          | .int n => some n
          | _ => none
        else none)).sum)
    | v => v)

/-- `CumSumStep.execute`: cumulative sum of the value column (per group
when a non-empty `groupby` list is given — Python truthiness, so `None`
and `[]` both mean ungrouped), assigned to the destination column. -/
def CumSumStep.execute (s : CumSumStep) (df : DF) : DF :=
  let serie :=
    match s.groupby with
    | some (g :: gs) => groupedCumsum df (g :: gs) s.value_column
    | _ => seriesCumsum 0 (df.getCol s.value_column)
  df.assign s.dst_column serie

/-- Running sums of a list of integers starting from `acc`:
specification-side description of `seriesCumsum` on an all-integer
column. -/
def sumsFrom (acc : Int) : List Int → List Int
  | [] => []
  | x :: xs => (acc + x) :: sumsFrom (acc + x) xs

theorem seriesCumsum_map_int (l : List Int) :
    ∀ acc : Int, seriesCumsum acc (l.map Value.int) = (sumsFrom acc l).map Value.int := by
  induction l with
  | nil => intro acc; simp [seriesCumsum, sumsFrom]
  | cons x xs ih => intro acc; simp [seriesCumsum, sumsFrom, ih]

theorem sumsFrom_getLast (l : List Int) :
    ∀ acc : Int, l ≠ [] → (sumsFrom acc l).getLast? = some (acc + l.sum) := by
  induction l with
  | nil => intro acc h; exact absurd rfl h
  | cons x xs ih =>
    intro acc _
    cases xs with
    | nil => simp [sumsFrom]
    | cons y ys =>
      have hrec : sumsFrom (acc + x) (y :: ys) = (acc + x + y) :: sumsFrom (acc + x + y) ys := rfl
      rw [sumsFrom, hrec, List.getLast?_cons_cons, ← hrec, ih (acc + x) (by simp)]
      congr 1
      simp only [List.sum_cons]
      ring

theorem sumsFrom_chain (l : List Int) :
    ∀ acc : Int, (∀ x ∈ l, 0 ≤ x) → List.Chain (· ≤ ·) acc (sumsFrom acc l) := by
  induction l with
  | nil => intro acc _; exact List.Chain.nil
  | cons x xs ih =>
    intro acc h
    refine List.Chain.cons ?_ (ih (acc + x) (fun y hy => h y (List.mem_cons_of_mem x hy)))
    exact le_add_of_nonneg_right (h x (List.mem_cons_self x xs))

/-- Ordering on integer cells used to state monotonicity of a column. -/
def Value.intLe : Value → Value → Prop
  | .int m, .int n => m ≤ n
  | _, _ => False

theorem getLast?_map_int (l : List Int) :
    (l.map Value.int).getLast? = l.getLast?.map Value.int := by
  induction l with
  | nil => rfl
  | cons x xs ih =>
    cases xs with
    | nil => rfl
    | cons y ys => simpa [List.getLast?_cons_cons] using ih

theorem chain'_sumsFrom (acc : Int) (l : List Int) (h : ∀ x ∈ l, 0 ≤ x) :
    List.Chain' (· ≤ ·) (sumsFrom acc l) := by
  have hc : List.Chain' (· ≤ ·) (acc :: sumsFrom acc l) := sumsFrom_chain l acc h
  exact hc.tail

/-- C1: the argmin step is claimed to keep only the rows attaining each
group's minimum (two rows here: label2 and label4).  Evaluating
`ArgminStep.execute` on the sample table of the repository's argmax test
shows the code instead keeps all six rows and overwrites the `value`
column with each group's minimum. -/
theorem C1_argmin_keeps_all_rows :
    ArgminStep.execute ⟨"value", ["group"]⟩ sampleDF =
      ⟨[("label", [.str "label1", .str "label2", .str "label3",
                   .str "label4", .str "label5", .str "label6"]),
        ("group", [.str "group 1", .str "group 1", .str "group 1",
                   .str "group 2", .str "group 2", .str "group 2"]),
        ("value", [.int 7, .int 7, .int 7, .int 1, .int 1, .int 1])]⟩ := by
  decide

/-- C2: for a cumulative-sum step with no grouping keys, on a table whose
value column holds the integers `ints`, the last value of the produced
column equals the sum of all input values, and the produced column is
non-decreasing whenever all input values are non-negative. -/
theorem C2_cumsum_last_eq_sum_and_monotone
    (s : CumSumStep) (df : DF) (ints : List Int)
    (hgb : s.groupby = none)
    (hvals : df.getCol s.value_column = ints.map Value.int)
    (hne : ints ≠ []) :
    ((s.execute df).getCol s.dst_column).getLast? = some (.int ints.sum)
    ∧ ((∀ x ∈ ints, 0 ≤ x) →
        List.Chain' Value.intLe ((s.execute df).getCol s.dst_column)) := by
  have hcol : (s.execute df).getCol s.dst_column = (sumsFrom 0 ints).map Value.int := by
    unfold CumSumStep.execute
    rw [hgb]
    simp only
    rw [getCol_assign_self, hvals, seriesCumsum_map_int]
  constructor
  · rw [hcol, getLast?_map_int, sumsFrom_getLast ints 0 hne]
    simp
  · intro hpos
    rw [hcol]
    have := chain'_sumsFrom 0 ints hpos
    exact (List.chain'_map Value.int).mpr (this.imp (fun a b hab => hab))

/-- Witness for C2 at a concrete table: value column `[1, 2]`,
cumulative sums `[1, 3]`, last value `3 = 1 + 2`, non-decreasing. -/
theorem C2_cumsum_witness :
    ((CumSumStep.execute ⟨"v", "r", none, none⟩
        ⟨[("v", [Value.int 1, Value.int 2])]⟩).getCol
          (CumSumStep.dst_column ⟨"v", "r", none, none⟩)).getLast?
      = some (Value.int 3)
    ∧ List.Chain' Value.intLe
        ((CumSumStep.execute ⟨"v", "r", none, none⟩
          ⟨[("v", [Value.int 1, Value.int 2])]⟩).getCol
            (CumSumStep.dst_column ⟨"v", "r", none, none⟩)) := by
  have h := C2_cumsum_last_eq_sum_and_monotone ⟨"v", "r", none, none⟩
    ⟨[("v", [Value.int 1, Value.int 2])]⟩ [1, 2] rfl (by decide) (by decide)
  exact ⟨h.1, h.2 (by decide)⟩

/-- C9: the output of `CumSumStep.execute` does not depend on the step's
mandatory `reference_column` field: two steps identical except for that
field produce equal output tables on every input. -/
theorem C9_cumsum_ignores_reference_column
    (vc r1 r2 : String) (gb : Option (List String)) (nc : Option String) (df : DF) :
    CumSumStep.execute ⟨vc, r1, gb, nc⟩ df = CumSumStep.execute ⟨vc, r2, gb, nc⟩ df := rfl

/-! ## Conditional-branch step (`weaverbird/steps/ifthenelse.py`)

The pandas expression evaluator (`df.eval`) and the formula cleaner
(`weaverbird.formula.clean_formula`) are external to the step code and
appear as parameters `evalE` and `cleanF`; a condition is represented by
its compiled filter semantics `DF → List Bool` (the boolean column
`condition.filter(df)` produces). -/

mutual
inductive IfThenElse : Type where
  | mk : (DF → List Bool) → String → ElseValue → IfThenElse
inductive ElseValue : Type where
  | branch : IfThenElse → ElseValue
  | value : Value → ElseValue
end

/-- `is_literal_string(value)`: a string whose first and last characters
are a double quote.  On the empty string, Python's `value[0]` raises
`IndexError` — hence the `Except`. -/
def is_literal_string : Value → Except Err Bool
  | .str s =>
    if s.length = 0 then .error .indexError
    else .ok (s.front == '"' && s.back == '"')
  | _ => .ok false

/-- `value[1:-1]`: strip the first and last character of a string. -/
def strip_literal : Value → Value
  | .str s => .str ((s.drop 1).dropRight 1)
  | v => v

/-- `clean_if_formula`: apply `clean_formula` to strings, pass anything
else through unchanged. -/
def clean_if_formula (cleanF : String → String) : Value → Value
  | .str s => .str (cleanF s)
  | v => v

/-- A branch value handed to `numpy.where`: either a broadcast scalar
(the stripped literal string) or a full column (an evaluator result or a
recursively computed column). -/
inductive Branch where
  | scalar : Value → Branch
  | column : List Value → Branch
deriving Repr

/-- Entry `i` of a branch under numpy broadcasting. -/
def Branch.att (b : Branch) (i : Nat) : Value :=
  match b with
  | .scalar v => v
  | .column l => l.getD i .null

/-- The column a branch denotes at row count `n`. -/
def Branch.materialize (n : Nat) : Branch → List Value
  | .scalar v => List.replicate n v
  | .column l => l

/-- `numpy.where(cond, t, e)`: elementwise selection over the condition
column's length (scalars broadcast; mismatched column lengths cannot
arise under the row-alignment hypotheses of the theorems below). -/
def npWhere (cond : List Bool) (t e : Branch) : List Value :=
  (List.range cond.length).map (fun i => if cond.getD i false then t.att i else e.att i)

/-- The shared literal-or-expression resolution of a `then` value or a
leaf `else` value: a quoted string literal is stripped and broadcast, and
never reaches the evaluator; anything else is cleaned and evaluated
against the table. -/
def resolve_leaf (evalE : Value → DF → List Value) (cleanF : String → String)
    (df : DF) (v : Value) : Except Err Branch :=
  match is_literal_string v with
  | .error err => .error err
  | .ok true => .ok (Branch.scalar (strip_literal v))
  | .ok false => .ok (Branch.column (evalE (clean_if_formula cleanF v) df))

mutual
/-- `IfThenElse.execute_ifthenelse(df, new_column)`: resolve the else
branch (recursively when it is itself a branch node), resolve the then
value, and assign `numpy.where(condition.filter(df), then, else)` to
`new_column`. -/
def IfThenElse.execute_ifthenelse (evalE : Value → DF → List Value)
    (cleanF : String → String) : IfThenElse → DF → String → Except Err DF
  | .mk cond then_v el, df, nc =>
    match resolve_else evalE cleanF el df nc with
    | .error err => .error err
    | .ok eb =>
      match resolve_leaf evalE cleanF df (.str then_v) with
      | .error err => .error err
      | .ok tb => .ok (df.assign nc (npWhere (cond df) tb eb))
/-- The else-branch resolution inside `execute_ifthenelse`: a nested
branch node is executed recursively and its `new_column` read back; a
leaf value goes through the literal-or-expression rule. -/
def resolve_else (evalE : Value → DF → List Value)
    (cleanF : String → String) : ElseValue → DF → String → Except Err Branch
  | .branch node, df, nc =>
    match node.execute_ifthenelse evalE cleanF df nc with
    | .error err => .error err
    | .ok df2 => .ok (Branch.column (df2.getCol nc))
  | .value v, df, _ => resolve_leaf evalE cleanF df v
end

/-- Length of the else-if chain hanging off a branch node. -/
def IfThenElse.depth : IfThenElse → Nat
  | .mk _ _ (.branch n) => n.depth + 1
  | .mk _ _ (.value _) => 0

/-- Chain length measured on an else value. -/
def ElseValue.edepth : ElseValue → Nat
  | .branch n => n.depth + 1
  | .value _ => 0

mutual
/-- Fuel-indexed variant of `execute_ifthenelse`, modelling the raw
recursion of the Python code: `none` when the fuel runs out before a
leaf is reached. -/
def executeFuel (evalE : Value → DF → List Value) (cleanF : String → String) :
    Nat → IfThenElse → DF → String → Option (Except Err DF)
  | 0, _, _, _ => none
  | fuel + 1, .mk cond then_v el, df, nc =>
    match resolveElseFuel evalE cleanF fuel el df nc with
    | none => none
    | some (.error err) => some (.error err)
    | some (.ok eb) =>
      match resolve_leaf evalE cleanF df (.str then_v) with
      | .error err => some (.error err)
      | .ok tb => some (.ok (df.assign nc (npWhere (cond df) tb eb)))
/-- Fuel-indexed variant of `resolve_else`. -/
def resolveElseFuel (evalE : Value → DF → List Value) (cleanF : String → String) :
    Nat → ElseValue → DF → String → Option (Except Err Branch)
  | fuel, .branch node, df, nc =>
    match executeFuel evalE cleanF fuel node df nc with
    | none => none
    | some (.error err) => some (.error err)
    | some (.ok df2) => some (.ok (Branch.column (df2.getCol nc)))
  | _, .value v, df, _ => some (resolve_leaf evalE cleanF df v)
end

mutual
/-- Row alignment of every condition in a chain with the table. -/
def IfThenElse.aligned (df : DF) : IfThenElse → Prop
  | .mk cond _ el => (cond df).length = df.height ∧ ElseValue.aligned df el
/-- Row alignment for the chain hanging off an else value. -/
def ElseValue.aligned (df : DF) : ElseValue → Prop
  | .branch n => IfThenElse.aligned df n
  | .value _ => True
end

theorem length_npWhere (cond : List Bool) (t e : Branch) :
    (npWhere cond t e).length = cond.length := by
  simp [npWhere]

theorem cond_getD_of_allTrue (cond : List Bool) (h : ∀ b ∈ cond, b = true)
    (i : Nat) (hi : i < cond.length) : cond.getD i false = true := by
  rw [List.getD_eq_getElem cond false hi]
  exact h cond[i] (List.getElem_mem hi)

theorem cond_getD_of_allFalse (cond : List Bool) (h : ∀ b ∈ cond, b = false)
    (i : Nat) (hi : i < cond.length) : cond.getD i false = false := by
  rw [List.getD_eq_getElem cond false hi]
  exact h cond[i] (List.getElem_mem hi)

theorem npWhere_allTrue (cond : List Bool) (t e : Branch)
    (h : ∀ b ∈ cond, b = true)
    (hlen : ∀ l, t = .column l → l.length = cond.length) :
    npWhere cond t e = t.materialize cond.length := by
  cases t with
  | scalar v =>
    apply List.ext_getElem
    · simp [npWhere, Branch.materialize]
    · intro i h1 h2
      have hi : i < cond.length := by simpa [npWhere] using h1
      simp only [npWhere, List.getElem_map, List.getElem_range,
        cond_getD_of_allTrue cond h i hi, if_true, Branch.materialize]
      simp [Branch.att]
  | column l =>
    have hl := hlen l rfl
    apply List.ext_getElem
    · simp [npWhere, Branch.materialize, hl]
    · intro i h1 h2
      have hi : i < cond.length := by simpa [npWhere] using h1
      simp only [npWhere, List.getElem_map, List.getElem_range,
        cond_getD_of_allTrue cond h i hi, if_true, Branch.materialize]
      simp only [Branch.att]
      exact List.getD_eq_getElem l Value.null (by omega)

theorem npWhere_allFalse (cond : List Bool) (t e : Branch)
    (h : ∀ b ∈ cond, b = false)
    (hlen : ∀ l, e = .column l → l.length = cond.length) :
    npWhere cond t e = e.materialize cond.length := by
  cases e with
  | scalar v =>
    apply List.ext_getElem
    · simp [npWhere, Branch.materialize]
    · intro i h1 h2
      have hi : i < cond.length := by simpa [npWhere] using h1
      simp only [npWhere, List.getElem_map, List.getElem_range,
        cond_getD_of_allFalse cond h i hi, if_false, Branch.materialize]
      simp [Branch.att]
  | column l =>
    have hl := hlen l rfl
    apply List.ext_getElem
    · simp [npWhere, Branch.materialize, hl]
    · intro i h1 h2
      have hi : i < cond.length := by simpa [npWhere] using h1
      simp only [npWhere, List.getElem_map, List.getElem_range,
        cond_getD_of_allFalse cond h i hi, if_false, Branch.materialize]
      simp only [Branch.att]
      exact List.getD_eq_getElem l Value.null (by omega)

theorem execute_ok_inv (evalE : Value → DF → List Value) (cleanF : String → String)
    (cond : DF → List Bool) (then_v : String) (el : ElseValue)
    (df df' : DF) (nc : String)
    (hex : IfThenElse.execute_ifthenelse evalE cleanF (.mk cond then_v el) df nc = .ok df') :
    ∃ eb tb, resolve_else evalE cleanF el df nc = .ok eb
      ∧ resolve_leaf evalE cleanF df (.str then_v) = .ok tb
      ∧ df' = df.assign nc (npWhere (cond df) tb eb) := by
  unfold IfThenElse.execute_ifthenelse at hex
  cases heb : resolve_else evalE cleanF el df nc with
  | error err => rw [heb] at hex; simp at hex
  | ok eb =>
    rw [heb] at hex
    cases htb : resolve_leaf evalE cleanF df (.str then_v) with
    | error err => rw [htb] at hex; simp at hex
    | ok tb =>
      rw [htb] at hex
      simp only [Except.ok.injEq] at hex
      exact ⟨eb, tb, rfl, rfl, hex.symm⟩

theorem resolve_leaf_ok_column (evalE : Value → DF → List Value)
    (cleanF : String → String) (df : DF) (v : Value) (l : List Value)
    (h : resolve_leaf evalE cleanF df v = .ok (.column l)) :
    l = evalE (clean_if_formula cleanF v) df := by
  unfold resolve_leaf at h
  cases hl : is_literal_string v with
  | error err => rw [hl] at h; simp at h
  | ok lit =>
    rw [hl] at h
    cases lit with
    | true => simp at h
    | false =>
      simp only [Except.ok.injEq, Branch.column.injEq] at h
      exact h.symm

theorem resolve_else_ok_length (evalE : Value → DF → List Value)
    (cleanF : String → String) (el : ElseValue) (df : DF) (nc : String)
    (l : List Value)
    (halign : ElseValue.aligned df el)
    (helen : ∀ v, (evalE v df).length = df.height)
    (h : resolve_else evalE cleanF el df nc = .ok (.column l)) :
    l.length = df.height := by
  cases el with
  | value v =>
    have := resolve_leaf_ok_column evalE cleanF df v l h
    rw [this]
    exact helen _
  | branch node =>
    unfold resolve_else at h
    cases hdf2 : IfThenElse.execute_ifthenelse evalE cleanF node df nc with
    | error err => rw [hdf2] at h; simp at h
    | ok df2 =>
      rw [hdf2] at h
      simp only [Except.ok.injEq, Branch.column.injEq] at h
      cases node with
      | mk cond2 then2 el2 =>
        obtain ⟨eb2, tb2, _, _, hdf2eq⟩ :=
          execute_ok_inv evalE cleanF cond2 then2 el2 df df2 nc hdf2
        rw [← h, hdf2eq, getCol_assign_self, length_npWhere]
        exact halign.1

/-- C3: for a conditional-branch step whose condition evaluates to `true`
on every row, the output column equals the `then` branch evaluated alone;
when it evaluates to `false` on every row, the output column equals the
fully resolved `else` chain evaluated alone. -/
theorem C3_constant_condition
    (evalE : Value → DF → List Value) (cleanF : String → String)
    (cond : DF → List Bool) (then_v : String) (el : ElseValue)
    (df df' : DF) (nc : String)
    (halign : IfThenElse.aligned df (.mk cond then_v el))
    (helen : ∀ v, (evalE v df).length = df.height)
    (hex : IfThenElse.execute_ifthenelse evalE cleanF (.mk cond then_v el) df nc = .ok df') :
    ((∀ b ∈ cond df, b = true) →
      ∃ tb, resolve_leaf evalE cleanF df (.str then_v) = .ok tb
        ∧ df'.getCol nc = tb.materialize df.height)
    ∧ ((∀ b ∈ cond df, b = false) →
      ∃ eb, resolve_else evalE cleanF el df nc = .ok eb
        ∧ df'.getCol nc = eb.materialize df.height) := by
  obtain ⟨eb, tb, heb, htb, hdf⟩ :=
    execute_ok_inv evalE cleanF cond then_v el df df' nc hex
  have hclen : (cond df).length = df.height := halign.1
  have hcol : df'.getCol nc = npWhere (cond df) tb eb := by
    rw [hdf, getCol_assign_self]
  constructor
  · intro hall
    refine ⟨tb, htb, ?_⟩
    rw [hcol, npWhere_allTrue (cond df) tb eb hall ?_, hclen]
    intro l hl
    rw [resolve_leaf_ok_column evalE cleanF df (.str then_v) l (hl ▸ htb)]
    rw [helen _, hclen]
  · intro hall
    refine ⟨eb, heb, ?_⟩
    rw [hcol, npWhere_allFalse (cond df) tb eb hall ?_, hclen]
    intro l hl
    have := resolve_else_ok_length evalE cleanF el df nc l halign.2 helen (hl ▸ heb)
    rw [this, hclen]

/-- A concrete evaluator for the witnesses: broadcasts the constant `0`. -/
def evalConst : Value → DF → List Value := fun _ df => List.replicate df.height (.int 0)

/-- An always-true condition (row-aligned with the table). -/
def condTrue : DF → List Bool := fun df => List.replicate df.height true

/-- An always-false condition (row-aligned with the table). -/
def condFalse : DF → List Bool := fun df => List.replicate df.height false

/-- A two-row, one-column table for the witnesses. -/
def dfW : DF := ⟨[("x", [Value.int 1, Value.int 2])]⟩

/-- Witness for C3 at concrete inputs: with an always-true condition the
output column is the broadcast `then` literal, and with an always-false
condition it is the broadcast leaf `else` literal. -/
theorem C3_constant_condition_witness :
    (∃ tb, resolve_leaf evalConst id dfW (.str "\"hi\"") = .ok tb
      ∧ (dfW.assign "out" [Value.str "hi", Value.str "hi"]).getCol "out"
          = tb.materialize dfW.height)
    ∧ (∃ eb, resolve_else evalConst id (.value (.str "\"lo\"")) dfW "out" = .ok eb
      ∧ (dfW.assign "out" [Value.str "lo", Value.str "lo"]).getCol "out"
          = eb.materialize dfW.height) := by
  constructor
  · exact (C3_constant_condition evalConst id condTrue "\"hi\"" (.value (.str "\"lo\""))
      dfW (dfW.assign "out" [Value.str "hi", Value.str "hi"]) "out"
      ⟨rfl, trivial⟩ (fun _ => rfl) rfl).1 (by decide)
  · exact (C3_constant_condition evalConst id condFalse "\"hi\"" (.value (.str "\"lo\""))
      dfW (dfW.assign "out" [Value.str "lo", Value.str "lo"]) "out"
      ⟨rfl, trivial⟩ (fun _ => rfl) rfl).2 (by decide)

/-- C4: the literal-or-expression rule applied to a `then` value or a
leaf `else` value: a quoted string literal is broadcast with its quotes
stripped, and the result does not depend on the evaluator or the formula
cleaner at all; any other string is handed to the evaluator (after
cleaning) as an expression. -/
theorem C4_literal_string_bypasses_evaluator
    (e1 e2 : Value → DF → List Value) (c1 c2 : String → String)
    (df : DF) (s : String) :
    (is_literal_string (.str s) = .ok true →
      resolve_leaf e1 c1 df (.str s) = .ok (.scalar (.str ((s.drop 1).dropRight 1)))
      ∧ resolve_leaf e1 c1 df (.str s) = resolve_leaf e2 c2 df (.str s))
    ∧ (is_literal_string (.str s) = .ok false →
      resolve_leaf e1 c1 df (.str s) = .ok (.column (e1 (.str (c1 s)) df))) := by
  constructor
  · intro h
    unfold resolve_leaf
    rw [h]
    exact ⟨rfl, rfl⟩
  · intro h
    unfold resolve_leaf
    rw [h]
    rfl

/-- Witness for C4: `"\"hi\""` is a quoted literal and is stripped to
`"hi"` with no evaluator involvement; `"x + 1"` is not and goes to the
evaluator. -/
theorem C4_literal_string_witness :
    (resolve_leaf evalConst id dfW (.str "\"hi\"") = .ok (.scalar (.str "hi"))
      ∧ resolve_leaf evalConst id dfW (.str "\"hi\"")
          = resolve_leaf (fun _ _ => []) (fun s => s ++ "!") dfW (.str "\"hi\""))
    ∧ resolve_leaf evalConst id dfW (.str "x + 1")
        = .ok (.column (evalConst (.str (id "x + 1")) dfW)) := by
  have h := C4_literal_string_bypasses_evaluator evalConst (fun _ _ => [])
    id (fun s => s ++ "!") dfW "\"hi\""
  have h2 := C4_literal_string_bypasses_evaluator evalConst (fun _ _ => [])
    id (fun s => s ++ "!") dfW "x + 1"
  refine ⟨⟨?_, (h.1 rfl).2⟩, h2.2 rfl⟩
  have := (h.1 rfl).1
  rw [this]
  rfl

/-- C5: a conditional-branch step returns the input table plus exactly
one column named by the step's target column — overwritten in place if a
column of that name exists, appended otherwise — with every other column
and the row count unchanged. -/
theorem C5_ifthenelse_frame
    (evalE : Value → DF → List Value) (cleanF : String → String)
    (cond : DF → List Bool) (then_v : String) (el : ElseValue)
    (df df' : DF) (nc : String)
    (halign : IfThenElse.aligned df (.mk cond then_v el))
    (helen : ∀ v, (evalE v df).length = df.height)
    (hex : IfThenElse.execute_ifthenelse evalE cleanF (.mk cond then_v el) df nc = .ok df') :
    df'.colNames = (if nc ∈ df.colNames then df.colNames else df.colNames ++ [nc])
    ∧ (∀ m, m ≠ nc → df'.getCol m = df.getCol m)
    ∧ (df'.getCol nc).length = df.height
    ∧ df'.height = df.height := by
  obtain ⟨eb, tb, heb, htb, hdf⟩ :=
    execute_ok_inv evalE cleanF cond then_v el df df' nc hex
  have hlen : (npWhere (cond df) tb eb).length = df.height := by
    rw [length_npWhere]
    exact halign.1
  subst hdf
  refine ⟨colNames_assign df nc _, fun m hm => getCol_assign_ne df nc _ m hm, ?_,
    height_assign df nc _ hlen⟩
  rw [getCol_assign_self]
  exact hlen

/-- Witness for C5: executing a concrete branch step on the two-row table
appends exactly the column `out` and keeps everything else. -/
theorem C5_ifthenelse_frame_witness :
    (dfW.assign "out" [Value.str "hi", Value.str "hi"]).colNames
        = (if "out" ∈ dfW.colNames then dfW.colNames else dfW.colNames ++ ["out"])
    ∧ (∀ m, m ≠ "out" →
        (dfW.assign "out" [Value.str "hi", Value.str "hi"]).getCol m = dfW.getCol m)
    ∧ ((dfW.assign "out" [Value.str "hi", Value.str "hi"]).getCol "out").length = dfW.height
    ∧ (dfW.assign "out" [Value.str "hi", Value.str "hi"]).height = dfW.height :=
  C5_ifthenelse_frame evalConst id condTrue "\"hi\"" (.value (.str "\"lo\""))
    dfW (dfW.assign "out" [Value.str "hi", Value.str "hi"]) "out"
    ⟨rfl, trivial⟩ (fun _ => rfl) rfl

theorem depth_mk (cond : DF → List Bool) (then_v : String) (el : ElseValue) :
    (IfThenElse.mk cond then_v el).depth = el.edepth := by
  cases el <;> rfl

mutual
theorem executeFuel_eq (evalE : Value → DF → List Value) (cleanF : String → String)
    (node : IfThenElse) (df : DF) (nc : String) :
    executeFuel evalE cleanF (node.depth + 1) node df nc
      = some (node.execute_ifthenelse evalE cleanF df nc) := by
  match node with
  | .mk cond then_v el =>
    have hel := resolveElseFuel_eq evalE cleanF el df nc
    rw [depth_mk]
    show executeFuel evalE cleanF (el.edepth + 1) (.mk cond then_v el) df nc = _
    unfold executeFuel
    rw [hel]
    unfold IfThenElse.execute_ifthenelse
    cases h1 : resolve_else evalE cleanF el df nc with
    | error err => rfl
    | ok eb =>
      cases h2 : resolve_leaf evalE cleanF df (.str then_v) with
      | error err => rfl
      | ok tb => rfl
theorem resolveElseFuel_eq (evalE : Value → DF → List Value) (cleanF : String → String)
    (el : ElseValue) (df : DF) (nc : String) :
    resolveElseFuel evalE cleanF el.edepth el df nc
      = some (resolve_else evalE cleanF el df nc) := by
  match el with
  | .value v => rfl
  | .branch node =>
    have hn := executeFuel_eq evalE cleanF node df nc
    show resolveElseFuel evalE cleanF (node.depth + 1) (.branch node) df nc = _
    unfold resolveElseFuel
    rw [hn]
    unfold resolve_else
    cases h1 : IfThenElse.execute_ifthenelse evalE cleanF node df nc with
    | error err => rfl
    | ok df2 => rfl
end

/-- C6: the recursive else-chain resolution performed by
`execute_ifthenelse` terminates for every finite chain: running the raw
recursion with fuel one more than the chain depth never runs out of fuel
and returns exactly the (total) execution result. -/
theorem C6_chain_resolution_terminates
    (evalE : Value → DF → List Value) (cleanF : String → String)
    (node : IfThenElse) (df : DF) (nc : String) :
    executeFuel evalE cleanF (node.depth + 1) node df nc
      = some (node.execute_ifthenelse evalE cleanF df nc) :=
  executeFuel_eq evalE cleanF node df nc

/-- C8: the literal-string check reads the first character of the
string, so an empty `then` value — or an empty-string leaf `else`
value — makes `execute_ifthenelse` raise (an `IndexError` in Python)
on every table. -/
theorem C8_empty_string_raises
    (evalE : Value → DF → List Value) (cleanF : String → String)
    (cond : DF → List Bool) (el : ElseValue) (then_v : String)
    (df : DF) (nc : String) :
    (∃ err, IfThenElse.execute_ifthenelse evalE cleanF (.mk cond "" el) df nc
        = .error err)
    ∧ (∃ err, IfThenElse.execute_ifthenelse evalE cleanF
          (.mk cond then_v (.value (.str ""))) df nc = .error err) := by
  constructor
  · unfold IfThenElse.execute_ifthenelse
    cases h1 : resolve_else evalE cleanF el df nc with
    | error err => exact ⟨err, rfl⟩
    | ok eb =>
      refine ⟨.indexError, ?_⟩
      have h2 : resolve_leaf evalE cleanF df (.str "") = .error .indexError := rfl
      rw [h2]
  · refine ⟨.indexError, ?_⟩
    unfold IfThenElse.execute_ifthenelse
    have h1 : resolve_else evalE cleanF (.value (.str "")) df nc
        = .error .indexError := rfl
    rw [h1]

/-! ## Pipeline validation (`weaverbird/pipeline.py`) -/

/-- Modelled from the spec: the step modules other than argmin, cumsum,
ifthenelse and duration are not among the sources, so the discriminants
of the 27 members of the `PipelineStep` union of `pipeline.py` follow
the spec's rule that each step's mandatory constant `name` field names
its variant (as `argmin.py`, `cumsum.py` and `ifthenelse.py` do). -/
def knownStepNames : List String :=
  ["aggregate", "append", "argmax", "argmin", "concatenate", "convert",
   "cumsum", "dateextract", "delete", "domain", "duplicate", "evolution",
   "fillna", "filter", "fromdate", "formula", "join", "rank", "rename",
   "percentage", "statistics", "ifthenelse", "lowercase", "pivot",
   "replace", "text", "rollup"]

/-- A step record in its transmitted form: the mandatory discriminant
field (variant-specific fields are validated per variant and are not
needed for the dispatch claim). -/
structure RawStep where
  name : String
deriving Repr, DecidableEq

/-- A member of the closed `PipelineStep` union: a step whose
discriminant is one of the known variants. -/
def PipelineStep : Type := {s : String // s ∈ knownStepNames}

/-- Modelled from the spec: pydantic validation of one step record
against the `PipelineStep` union — a record is accepted exactly when its
discriminant names a known variant, and rejected with a fatal
`ValidationError` otherwise. -/
def validatePipelineStep (raw : RawStep) : Except Err PipelineStep :=
  if h : raw.name ∈ knownStepNames then .ok ⟨raw.name, h⟩
  else .error .validationError

/-- Validation of a step list: the first failure is fatal. -/
def validateSteps : List RawStep → Except Err (List PipelineStep)
  | [] => .ok []
  | r :: rest =>
    match validatePipelineStep r with
    | .error err => .error err
    | .ok s =>
      match validateSteps rest with
      | .error err => .error err
      | .ok ss => .ok (s :: ss)

/-- `Pipeline`: the validated ordered step list. -/
structure Pipeline where
  steps : List PipelineStep

/-- Modelled from the spec: constructing a `Pipeline` from transmitted
step records validates every record; any failure aborts construction. -/
def Pipeline.construct (raws : List RawStep) : Except Err Pipeline :=
  match validateSteps raws with
  | .error err => .error err
  | .ok steps => .ok ⟨steps⟩

theorem validateSteps_error (raws : List RawStep) (r : RawStep)
    (hr : r ∈ raws) (hn : r.name ∉ knownStepNames) :
    validateSteps raws = .error .validationError := by
  induction raws with
  | nil => cases hr
  | cons head rest ih =>
    by_cases hh : head.name ∈ knownStepNames
    · have hr2 : r ∈ rest := by
        cases List.mem_cons.mp hr with
        | inl heq => exact absurd (heq ▸ hh) hn
        | inr h => exact h
      unfold validateSteps validatePipelineStep
      rw [dif_pos hh, ih hr2]
    · unfold validateSteps validatePipelineStep
      rw [dif_neg hh]

theorem validateSteps_ok (raws : List RawStep) (steps : List PipelineStep)
    (h : validateSteps raws = .ok steps) :
    (∀ s ∈ steps, s.1 ∈ knownStepNames) ∧ steps.length = raws.length := by
  induction raws generalizing steps with
  | nil =>
    unfold validateSteps at h
    simp only [Except.ok.injEq] at h
    subst h
    exact ⟨fun s hs => absurd hs (List.not_mem_nil s), rfl⟩
  | cons head rest ih =>
    unfold validateSteps at h
    cases hv : validatePipelineStep head with
    | error err => rw [hv] at h; simp at h
    | ok s0 =>
      rw [hv] at h
      cases hrest : validateSteps rest with
      | error err => rw [hrest] at h; simp at h
      | ok ss =>
        rw [hrest] at h
        simp only [Except.ok.injEq] at h
        subst h
        obtain ⟨hmem, hlen⟩ := ih ss hrest
        refine ⟨fun s hs => ?_, by simp [hlen]⟩
        cases List.mem_cons.mp hs with
        | inl heq => exact heq ▸ s0.2
        | inr h2 => exact hmem s h2

/-- C7: a step record whose discriminant names no known variant makes
`Pipeline` construction fail with a fatal validation error (never
silently dropped), and every step of a successfully constructed pipeline
belongs to the closed union of known variants — with as many steps as
records, so none was ignored. -/
theorem C7_unknown_discriminant_rejected (raws : List RawStep) :
    ((∃ r ∈ raws, r.name ∉ knownStepNames) →
      Pipeline.construct raws = .error .validationError)
    ∧ (∀ p, Pipeline.construct raws = .ok p →
        (∀ s ∈ p.steps, s.1 ∈ knownStepNames) ∧ p.steps.length = raws.length) := by
  constructor
  · intro ⟨r, hr, hn⟩
    unfold Pipeline.construct
    rw [validateSteps_error raws r hr hn]
  · intro p hp
    unfold Pipeline.construct at hp
    cases hv : validateSteps raws with
    | error err => rw [hv] at hp; simp at hp
    | ok steps =>
      rw [hv] at hp
      simp only [Except.ok.injEq] at hp
      subst hp
      exact validateSteps_ok raws steps hv

/-- Witness for C7: the record named `unknownstep` is rejected fatally;
the two-record pipeline `argmin; cumsum` is accepted with both steps in
the closed union and none dropped. -/
theorem C7_unknown_discriminant_witness :
    Pipeline.construct [⟨"unknownstep"⟩] = .error .validationError
    ∧ ((∀ s ∈ (Pipeline.mk [⟨"argmin", by decide⟩, ⟨"cumsum", by decide⟩]).steps,
          s.1 ∈ knownStepNames)
        ∧ (Pipeline.mk [⟨"argmin", by decide⟩, ⟨"cumsum", by decide⟩]).steps.length
            = [RawStep.mk "argmin", RawStep.mk "cumsum"].length) := by
  constructor
  · exact (C7_unknown_discriminant_rejected [⟨"unknownstep"⟩]).1
      ⟨⟨"unknownstep"⟩, List.mem_singleton.mpr rfl, by decide⟩
  · exact (C7_unknown_discriminant_rejected [⟨"argmin"⟩, ⟨"cumsum"⟩]).2
      (Pipeline.mk [⟨"argmin", by decide⟩, ⟨"cumsum", by decide⟩]) rfl

/-! ## Duration step (`weaverbird/steps/duration.py`) -/

/-- `durations_in_second`: seconds per unit
(`_SECOND = 1`, `_MINUTE = 60`, `_HOUR = 3600`, `_DAY = 86400`). -/
def durations_in_second : List (String × Int) :=
  [("seconds", 1), ("minutes", 60), ("hours", 3600), ("days", 86400)]

/-- `DurationStep`: fields of the pydantic model. -/
structure DurationStep where
  new_column_name : String
  start_date_column : String
  end_date_column : String
  duration_in : String
deriving Repr, DecidableEq

/-- `(df[end] - df[start]).astype('timedelta64[s]')` on one row:
difference of two timestamp cells in seconds; null (NaT) when a cell is
not a timestamp. -/
def durationSub : Value → Value → Value
  | .int e, .int s => .int (e - s)
  | _, _ => .null

/-- Division of a seconds cell by the unit factor. -/
def durationDiv (factor : Int) : Value → Value
  | .int n => .rat ((n : ℚ) / (factor : ℚ))
  | v => v

/-- `DurationStep.execute`: `assert duration_in in durations_in_second`,
then assign `(end - start) in seconds / durations_in_second[duration_in]`
to the new column.  The column accesses `df[end_date_column]` and
`df[start_date_column]` raise `KeyError` when the column is absent —
the end column is read first, as in the source's subtraction. -/
def DurationStep.execute (s : DurationStep) (df : DF) : Except Err DF :=
  match durations_in_second.find? (fun p => p.1 == s.duration_in) with
  | none => .error .assertionError
  | some p =>
    match lookupCol df.cols s.end_date_column with
    | none => .error .keyError
    | some ends =>
      match lookupCol df.cols s.start_date_column with
      | none => .error .keyError
      | some starts =>
        .ok (df.assign s.new_column_name
          ((List.zipWith durationSub ends starts).map (durationDiv p.2)))

theorem execute_of_find (s : DurationStep) (df : DF) (f : Int)
    (ends starts : List Value)
    (hf : durations_in_second.find? (fun p => p.1 == s.duration_in)
      = some (s.duration_in, f))
    (he : lookupCol df.cols s.end_date_column = some ends)
    (hs : lookupCol df.cols s.start_date_column = some starts) :
    s.execute df = .ok (df.assign s.new_column_name
      ((List.zipWith durationSub ends starts).map (durationDiv f))) := by
  unfold DurationStep.execute
  rw [hf, he, hs]

theorem execute_of_none (s : DurationStep) (df : DF)
    (hf : durations_in_second.find? (fun p => p.1 == s.duration_in) = none) :
    s.execute df = .error .assertionError := by
  unfold DurationStep.execute
  rw [hf]

theorem durations_find_none (x : String)
    (h1 : x ≠ "seconds") (h2 : x ≠ "minutes") (h3 : x ≠ "hours") (h4 : x ≠ "days") :
    durations_in_second.find? (fun p => p.1 == x) = none := by
  have e1 : (("seconds" : String) == x) = false := beq_eq_false_iff_ne.mpr (Ne.symm h1)
  have e2 : (("minutes" : String) == x) = false := beq_eq_false_iff_ne.mpr (Ne.symm h2)
  have e3 : (("hours" : String) == x) = false := beq_eq_false_iff_ne.mpr (Ne.symm h3)
  have e4 : (("days" : String) == x) = false := beq_eq_false_iff_ne.mpr (Ne.symm h4)
  simp [durations_in_second, List.find?, e1, e2, e3, e4]

/-- C10: the duration step succeeds only when `duration_in` is one of
exactly `seconds`, `minutes`, `hours`, `days`; any other unit raises the
assertion error before touching the table (the same error on every
table); and when the unit is valid and both date columns are present the
produced column is the end-minus-start difference in seconds divided by
the unit factor found in `durations_in_second` (1, 60, 3600 or 86400). -/
theorem C10_duration_unit_check (s : DurationStep) (df : DF) :
    ((s.execute df).isOk = true
      → s.duration_in ∈ (["seconds", "minutes", "hours", "days"] : List String))
    ∧ (s.duration_in ∉ (["seconds", "minutes", "hours", "days"] : List String) →
        ∀ df2, s.execute df2 = .error .assertionError)
    ∧ (∀ (ends starts : List Int) (f : Int),
        lookupCol df.cols s.end_date_column = some (ends.map Value.int) →
        lookupCol df.cols s.start_date_column = some (starts.map Value.int) →
        durations_in_second.find? (fun p => p.1 == s.duration_in)
          = some (s.duration_in, f) →
        (f = 1 ∨ f = 60 ∨ f = 3600 ∨ f = 86400)
        ∧ s.execute df = .ok (df.assign s.new_column_name
            (List.zipWith (fun e0 s0 => Value.rat (((e0 - s0 : Int) : ℚ) / (f : ℚ)))
              ends starts))) := by
  refine ⟨?_, ?_, ?_⟩
  · intro hok
    by_contra hmem
    simp only [List.mem_cons, List.not_mem_nil, or_false, not_or] at hmem
    obtain ⟨h1, h2, h3, h4⟩ := hmem
    rw [execute_of_none s df (durations_find_none s.duration_in h1 h2 h3 h4)] at hok
    simp [Except.isOk, Except.toBool] at hok
  · intro hmem df2
    simp only [List.mem_cons, List.not_mem_nil, or_false, not_or] at hmem
    obtain ⟨h1, h2, h3, h4⟩ := hmem
    exact execute_of_none s df2 (durations_find_none s.duration_in h1 h2 h3 h4)
  · intro ends starts f hends hstarts hf
    constructor
    · have hfs := hf
      simp only [durations_in_second, List.find?] at hfs
      by_cases c1 : (("seconds" : String) == s.duration_in) = true
      · simp only [c1, cond_true, Option.some.injEq, Prod.mk.injEq] at hfs
        exact Or.inl hfs.2.symm
      · simp only [Bool.not_eq_true] at c1
        by_cases c2 : (("minutes" : String) == s.duration_in) = true
        · simp only [c1, c2, cond_true, cond_false, Option.some.injEq,
            Prod.mk.injEq] at hfs
          exact Or.inr (Or.inl hfs.2.symm)
        · simp only [Bool.not_eq_true] at c2
          by_cases c3 : (("hours" : String) == s.duration_in) = true
          · simp only [c1, c2, c3, cond_true, cond_false, Option.some.injEq,
              Prod.mk.injEq] at hfs
            exact Or.inr (Or.inr (Or.inl hfs.2.symm))
          · simp only [Bool.not_eq_true] at c3
            by_cases c4 : (("days" : String) == s.duration_in) = true
            · simp only [c1, c2, c3, c4, cond_true, cond_false, Option.some.injEq,
                Prod.mk.injEq] at hfs
              exact Or.inr (Or.inr (Or.inr hfs.2.symm))
            · simp only [Bool.not_eq_true] at c4
              simp [c1, c2, c3, c4] at hfs
    · rw [execute_of_find s df f (ends.map Value.int) (starts.map Value.int)
        hf hends hstarts,
        List.zipWith_map_left, List.zipWith_map_right, List.map_zipWith]
      rfl

/-- The concrete table of the duration witness: start and end timestamps
in epoch seconds. -/
def dfDur : DF :=
  ⟨[("start", [Value.int 0, Value.int 60]), ("end", [Value.int 120, Value.int 180])]⟩

/-- Witness for C10: unit `weeks` is rejected by the assertion; unit
`minutes` divides the second differences by 60. -/
theorem C10_duration_witness :
    DurationStep.execute ⟨"dur", "start", "end", "weeks"⟩ dfDur
        = .error .assertionError
    ∧ DurationStep.execute ⟨"dur", "start", "end", "minutes"⟩ dfDur
        = .ok (dfDur.assign "dur"
            (List.zipWith (fun e0 s0 => Value.rat (((e0 - s0 : Int) : ℚ) / (60 : ℚ)))
              [120, 180] [0, 60])) := by
  constructor
  · exact (C10_duration_unit_check ⟨"dur", "start", "end", "weeks"⟩ dfDur).2.1
      (by decide) dfDur
  · exact ((C10_duration_unit_check ⟨"dur", "start", "end", "minutes"⟩ dfDur).2.2
      [120, 180] [0, 60] 60 rfl rfl rfl).2

end Weaverbird
